import Mathlib

/-!
Shallow embedding of the analytics core of `src/app.py` (a stock event-impact
analyzer).  The program reads CSV rows, cleans them (strip thousands commas,
parse numerics with coerce-to-NaN, parse dates as `%m/%d/%Y` with
coerce-to-NaT, drop rows with undefined Date/Close, sort by date, compute
`Pct_Change = Close.pct_change() * 100`), and evaluates an event date
(range check against min/max date, a ±15-day bounding window, the last 5
rows strictly before / first 5 strictly after the event, NaN-skipping means).

Machine floats are modelled by `ℚ`; "NaN"/"NaT"/missing values by `Option`.
Text is modelled as `List Char`.  Calendar dates are triples validated the
way `pandas.to_datetime(format="%m/%d/%Y", errors="coerce")` validates them,
and are compared through a day count (`Date.toDays`, the standard
days-from-civil formula), mirroring comparisons of pandas `Timestamp`s.
-/

namespace StockApp

/-- Text is modelled as a list of characters. -/
abbrev Str := List Char

/-- The ten decimal digit characters. -/
def digitChar (d : ℕ) : Char :=
  match d with
  | 0 => '0' | 1 => '1' | 2 => '2' | 3 => '3' | 4 => '4'
  | 5 => '5' | 6 => '6' | 7 => '7' | 8 => '8' | _ => '9'

/-- Numeric value of a digit character. -/
def digitVal (c : Char) : ℕ := c.toNat - '0'.toNat

/-- Decimal digit test (the code points of '0'..'9'). -/
def isDigitC (c : Char) : Bool := decide (48 ≤ c.toNat ∧ c.toNat ≤ 57)

/-- Value of a digit string (left fold, so leading zeros are harmless). -/
def parseNatRaw (cs : Str) : ℕ := cs.foldl (fun a c => 10 * a + digitVal c) 0

/-- Decimal rendering of a natural number. -/
def natToStr (n : ℕ) : Str :=
  if n = 0 then ['0'] else ((Nat.digits 10 n).reverse.map digitChar)

/-- Left-pad with `'0'` to length `k`. -/
def padZeros (k : ℕ) (cs : Str) : Str := List.replicate (k - cs.length) '0' ++ cs

/-- Models `.str.replace(",", "")` from `app.py` line 42. -/
def stripCommas (cs : Str) : Str := cs.filter (fun c => c ≠ ',')

/-- Models `pd.to_numeric(errors="coerce")` on an unsigned numeral
(`app.py` line 43): digits, optionally followed by a dot and digits. -/
def parseUnsignedQ (cs : Str) : Option ℚ :=
  let ip := cs.takeWhile isDigitC
  let rest := cs.dropWhile isDigitC
  if rest = [] then
    if ip.isEmpty then none else some (parseNatRaw ip : ℚ)
  else if rest.head? = some '.' then
    let fp := rest.tail
    if fp.all isDigitC && !(ip.isEmpty && fp.isEmpty) then
      some ((parseNatRaw ip : ℚ) + (parseNatRaw fp : ℚ) / 10 ^ fp.length)
    else none
  else none

/-- Models the numeric-field cleaning of `app.py` lines 42–43: strip
thousands separators, then best-effort parse (failures become `none`,
the model of NaN). -/
def parseNumber (cs : Str) : Option ℚ :=
  let cs' := stripCommas cs
  if cs'.head? = some '-' then (parseUnsignedQ cs'.tail).map (fun q => -q)
  else parseUnsignedQ cs'

/-- Smallest `k ≤ d` with `d ∣ 10 ^ k`, when one exists (it does for every
denominator produced by `parseNumber`). -/
def pow10Exp (d : ℕ) : ℕ :=
  (((List.range (d + 1)).find? (fun k => 10 ^ k % d == 0)).getD 0)

/-- Decimal rendering of a nonnegative rational whose denominator divides a
power of ten. -/
def formatUnsigned (q : ℚ) : Str :=
  let k := pow10Exp q.den
  let n := q.num.natAbs * (10 ^ k / q.den)
  if k = 0 then natToStr n
  else natToStr (n / 10 ^ k) ++ '.' :: padZeros k (natToStr (n % 10 ^ k))

/-- Decimal rendering of a rational (numeric fields as text). -/
def formatRat (q : ℚ) : Str := if q < 0 then '-' :: formatUnsigned (-q) else formatUnsigned q

/-- A calendar date as parsed from `MM/DD/YYYY` text. -/
structure Date where
  year : ℕ
  month : ℕ
  day : ℕ
deriving DecidableEq, Repr

/-- Gregorian leap-year test. -/
def isLeap (y : ℕ) : Bool := y % 4 = 0 && (y % 100 ≠ 0 || y % 400 = 0)

/-- Number of days in a month. -/
def daysInMonth (y m : ℕ) : ℕ :=
  match m with
  | 1 => 31 | 2 => if isLeap y then 29 else 28 | 3 => 31 | 4 => 30
  | 5 => 31 | 6 => 30 | 7 => 31 | 8 => 31 | 9 => 30 | 10 => 31
  | 11 => 30 | _ => 31

/-- Day count of a date (days-from-civil, shifted so that it is a natural
number for all years ≥ 1).  Strictly monotone in calendar order; it models
the ordering and day arithmetic of pandas `Timestamp`s. -/
def Date.toDays (dt : Date) : ℕ :=
  let y := if dt.month ≤ 2 then dt.year - 1 else dt.year
  let era := y / 400
  let yoe := y % 400
  let mp := (dt.month + 9) % 12
  let doy := (153 * mp + 2) / 5 + dt.day - 1
  era * 146097 + (yoe * 365 + yoe / 4 - yoe / 100 + doy)

/-- Day count as an integer (so that subtracting 15 days never truncates). -/
def Date.toDaysZ (dt : Date) : ℤ := (dt.toDays : ℤ)

/-- Day count of `1677-09-22`, the earliest date-only pandas `Timestamp`. -/
def tsMinDays : ℕ := Date.toDays ⟨1677, 9, 22⟩

/-- Day count of `2262-04-11`, the latest date-only pandas `Timestamp`. -/
def tsMaxDays : ℕ := Date.toDays ⟨2262, 4, 11⟩

/-- Validity of a parsed date: the checks performed by
`pd.to_datetime(format="%m/%d/%Y", errors="coerce")` — month and
day-of-month ranges, a four-digit year, and the pandas `Timestamp` bounds
(out-of-bounds dates coerce to NaT). -/
def validDate (dt : Date) : Bool :=
  decide (1 ≤ dt.month) && decide (dt.month ≤ 12) &&
  decide (1 ≤ dt.day) && decide (dt.day ≤ daysInMonth dt.year dt.month) &&
  decide (dt.year ≤ 9999) &&
  decide (tsMinDays ≤ dt.toDays) && decide (dt.toDays ≤ tsMaxDays)

/-- A digit group of bounded width: nonempty, all digits, length ≤ `w`. -/
def digitGroup (w : ℕ) (cs : Str) : Bool :=
  cs.all isDigitC && decide (1 ≤ cs.length) && decide (cs.length ≤ w)

/-- Models `pd.to_datetime(format="%m/%d/%Y", errors="coerce")` on one cell
(`app.py` line 46): strict month/day/year order, `/` separators, one or two
digit month and day, exactly four digit year, calendar validation; any
failure is `none` (the model of NaT). -/
def parseDate (cs : Str) : Option Date :=
  let p1 := cs.takeWhile (fun c => c ≠ '/')
  let rest1 := cs.dropWhile (fun c => c ≠ '/')
  if rest1.head? = some '/' then
    let r1 := rest1.tail
    let p2 := r1.takeWhile (fun c => c ≠ '/')
    let rest2 := r1.dropWhile (fun c => c ≠ '/')
    if rest2.head? = some '/' then
      let p3 := rest2.tail
      if digitGroup 2 p1 && digitGroup 2 p2 &&
         (p3.all isDigitC && decide (p3.length = 4)) then
        let dt : Date := ⟨parseNatRaw p3, parseNatRaw p1, parseNatRaw p2⟩
        if validDate dt then some dt else none
      else none
    else none
  else none

/-- `MM/DD/YYYY` rendering of a date, as the serialization of a cleaned
series would write it. -/
def formatDate (dt : Date) : Str :=
  padZeros 2 (natToStr dt.month) ++ '/' :: padZeros 2 (natToStr dt.day) ++
    '/' :: padZeros 4 (natToStr dt.year)

/-- One raw CSV row as the cleaner sees it: the `Date` cell, the `Close`
cell, and the (unmodified) content of every other column, bundled opaquely.
The other numeric columns (Open/High/Low/Volume) are cleaned the same way as
`Close` but never read again, so they are carried inside `extra`. -/
structure RawRecord where
  dateS : Str
  closeS : Str
  extra : Str
deriving DecidableEq, Repr

/-- A cleaned row before the `Pct_Change` column exists. -/
structure RowC where
  date : Date
  close : ℚ
  extra : Str
deriving DecidableEq, Repr

/-- A row of the cleaned series: date, close, the derived `Pct_Change`
(undefined on the first row), and the untouched remaining columns. -/
structure Row extends RowC where
  pct : Option ℚ
deriving DecidableEq, Repr

/-- Chronological day count of a cleaned row. -/
def Row.days (r : Row) : ℤ := r.date.toDaysZ

/-- Parsing one row (`app.py` lines 42–47): numeric-clean the `Close` cell,
date-parse the `Date` cell, and drop the row (`dropna(subset=["Date",
"Close"])`) unless both are defined. -/
def parseRow (raw : RawRecord) : Option RowC :=
  match parseDate raw.dateS, parseNumber raw.closeS with
  | some dt, some c => some ⟨dt, c, raw.extra⟩
  | _, _ => none

/-- The sort key of `sort_values("Date")`: comparison of `Timestamp`s,
i.e. of day counts. -/
def rcLE (a b : RowC) : Prop := a.date.toDaysZ ≤ b.date.toDaysZ

instance : DecidableRel rcLE :=
  fun a b => inferInstanceAs (Decidable (a.date.toDaysZ ≤ b.date.toDaysZ))

instance : IsTotal RowC rcLE := ⟨fun a b => Int.le_total a.date.toDaysZ b.date.toDaysZ⟩

instance : IsTrans RowC rcLE := ⟨fun _ _ _ h h' => le_trans h h'⟩

/-- `sort_values("Date")` (`app.py` line 47), modelled by a deterministic
(stable) sort on the day count.  pandas' default `kind='quicksort'`
guarantees only that the output is date-ordered and a permutation of the
input; its order among EQUAL dates is an unspecified detail of numpy's
introsort and is not fixed by this repository's source.  The model commits
to one deterministic tie order; every property proved below about the
cleaned series is insensitive to the tie order (sortedness, membership,
permutation, window bounds), except that round-trip idempotence is only
asserted for series without duplicate dates, where every correct sort
produces the same, unique output. -/
def sortRows (l : List RowC) : List RowC := List.insertionSort rcLE l

/-- One step of `Close.pct_change() * 100`: the daily return of `cur`
relative to the previous surviving row `prev`. -/
def pctFormula (prev cur : ℚ) : ℚ := (cur / prev - 1) * 100

/-- `df["Pct_Change"] = df["Close"].pct_change() * 100` (`app.py` line 50):
row 0 gets an undefined value, row `i+1` pairs with row `i`. -/
def addPct (l : List RowC) : List Row :=
  match l with
  | [] => []
  | x :: xs =>
    ⟨x, none⟩ :: List.zipWith (fun p c => ⟨c, some (pctFormula p.close c.close)⟩) (x :: xs) xs

/-- The cleaning pipeline of `analyze_single_file` (`app.py` lines 36–52):
parse fields, drop rows with undefined Date/Close, sort by date, derive
`Pct_Change`. -/
def clean (raws : List RawRecord) : List Row :=
  addPct (sortRows (raws.filterMap parseRow))

/-- Serialization of a cleaned row back into the textual raw-record format
(`MM/DD/YYYY` date, the close as a decimal numeral).  The recomputed
`Pct_Change` column is overwritten by `clean` and so is not carried. -/
def serializeRow (r : Row) : RawRecord := ⟨formatDate r.date, formatRat r.close, r.extra⟩

/-- The outcome of the event analysis (`app.py` lines 70–90): the
`valid_event` flag (the in-range signal) and the two window averages. -/
structure EventResult where
  valid : Bool
  beforeAvg : Option ℚ
  afterAvg : Option ℚ
deriving DecidableEq, Repr

/-- `df["Date"].min()`: undefined (NaT) on an empty series. -/
def minDays (rows : List Row) : Option ℤ :=
  match rows with
  | [] => none
  | r :: rs => some (rs.foldl (fun a x => min a x.days) r.days)

/-- `df["Date"].max()`: undefined (NaT) on an empty series. -/
def maxDays (rows : List Row) : Option ℤ :=
  match rows with
  | [] => none
  | r :: rs => some (rs.foldl (fun a x => max a x.days) r.days)

/-- `event_ts < df["Date"].min()`: comparison against NaT is false. -/
def ltMin (ev : ℤ) (m : Option ℤ) : Bool :=
  match m with
  | none => false
  | some v => decide (ev < v)

/-- `event_ts > df["Date"].max()`: comparison against NaT is false. -/
def gtMax (ev : ℤ) (m : Option ℤ) : Bool :=
  match m with
  | none => false
  | some v => decide (v < ev)

/-- The ±15 calendar-day bounding window (`app.py` lines 82–83). -/
def windowRows (rows : List Row) (ev : ℤ) : List Row :=
  rows.filter (fun r => decide (ev - 15 ≤ r.days) && decide (r.days ≤ ev + 15))

/-- `l.tail(5)` in pandas: the last `n` rows. -/
def tailN (n : ℕ) (l : List Row) : List Row := l.drop (l.length - n)

/-- `before = window[window["Date"] < event_ts].tail(5)` (`app.py` line 86). -/
def beforeRows (rows : List Row) (ev : ℤ) : List Row :=
  tailN 5 ((windowRows rows ev).filter (fun r => decide (r.days < ev)))

/-- `after = window[window["Date"] > event_ts].head(5)` (`app.py` line 87). -/
def afterRows (rows : List Row) (ev : ℤ) : List Row :=
  ((windowRows rows ev).filter (fun r => decide (ev < r.days))).take 5

/-- The same before-selection without the ±15-day restriction; stated by the
spec to be equivalent ("purely an optimization").  Used to settle C6. -/
def beforeAllRows (rows : List Row) (ev : ℤ) : List Row :=
  tailN 5 (rows.filter (fun r => decide (r.days < ev)))

/-- The same after-selection without the ±15-day restriction. -/
def afterAllRows (rows : List Row) (ev : ℤ) : List Row :=
  (rows.filter (fun r => decide (ev < r.days))).take 5

/-- `Series.mean()` with pandas NaN-skipping: the mean of the defined
entries, undefined when there are none (also when the list is empty). -/
def meanOpt (xs : List (Option ℚ)) : Option ℚ :=
  let ds := xs.filterMap id
  if ds.length = 0 then none else some (ds.sum / (ds.length : ℚ))

/-- Spec-side definition (spec §4.1 `evaluateEvent`): "arithmetic mean of
`pct_change` over the window rows; mean skips undefined entries; if zero
defined entries remain, the average itself is undefined". -/
def meanOfDefined (rows : List Row) : Option ℚ :=
  let vs := rows.filterMap Row.pct
  if vs = [] then none else some (vs.sum / (vs.length : ℚ))

/-- The event analysis of `app.py` lines 70–90: the range check
`event_ts < min or event_ts > max` (false against NaT), then the window
selections and NaN-skipping means. -/
def evaluateEvent (rows : List Row) (ev : ℤ) : EventResult :=
  if ltMin ev (minDays rows) || gtMax ev (maxDays rows) then
    ⟨false, none, none⟩
  else
    ⟨true, meanOpt ((beforeRows rows ev).map Row.pct),
      meanOpt ((afterRows rows ev).map Row.pct)⟩

/-- A rational is decimal when its denominator divides a power of ten; every
value `parseNumber` produces is decimal, and exactly these round-trip
through decimal text.  (The exponent `q.den` is large enough: see
`dvd_pow_ten_self`.) -/
def DecimalQ (q : ℚ) : Prop := q.den ∣ 10 ^ q.den

/-- The pointwise order of rows used by the sort: chronological order of
their dates. -/
def rowLE (a b : Row) : Prop := a.days ≤ b.days

instance : IsTrans Row rowLE := ⟨fun _ _ _ h h' => le_trans h h'⟩

instance : DecidableRel rowLE := fun a b => inferInstanceAs (Decidable (a.days ≤ b.days))

/-! ### Concrete data used by witnesses and counterexamples -/

/-- A raw row: Jan 2 2024, close 100. -/
def wRaw1 : RawRecord := ⟨"01/02/2024".data, "100".data, "p".data⟩

/-- A raw row: Jan 3 2024, close 110. -/
def wRaw2 : RawRecord := ⟨"01/03/2024".data, "110".data, "q".data⟩

/-- A raw row: Jan 5 2024, close 99. -/
def wRaw3 : RawRecord := ⟨"01/05/2024".data, "99".data, "r".data⟩

/-- A small unsorted batch of raw rows. -/
def wRaws : List RawRecord := [wRaw2, wRaw1, wRaw3]

/-- An event date inside the span of `wRaws`: Jan 4 2024. -/
def wEvent : ℤ := Date.toDaysZ ⟨2024, 1, 4⟩

/-- Series with a long gap: Jan 1, Jan 2, Mar 1 2024. -/
def cexRawsGap : List RawRecord :=
  [⟨"01/01/2024".data, "100".data, []⟩, ⟨"01/02/2024".data, "110".data, []⟩,
   ⟨"03/01/2024".data, "120".data, []⟩]

/-- An event date (Feb 1 2024) inside the span of `cexRawsGap` but more than
15 days away from every row before it. -/
def cexEventGap : ℤ := Date.toDaysZ ⟨2024, 2, 1⟩

/-- Two raw rows sharing the date Jan 2 2024. -/
def cexRawsDup : List RawRecord :=
  [⟨"01/02/2024".data, "100".data, []⟩, ⟨"01/02/2024".data, "101".data, []⟩]

/-- A raw row whose date is not in `MM/DD/YYYY` format. -/
def cexRawBadDate : RawRecord := ⟨"2024-01-02".data, "100".data, []⟩

/-! ### Digit strings -/

theorem digitVal_digitChar {d : ℕ} (h : d < 10) : digitVal (digitChar d) = d := by
  interval_cases d <;> rfl

theorem isDigitC_digitChar {d : ℕ} (h : d < 10) : isDigitC (digitChar d) = true := by
  interval_cases d <;> rfl

theorem digitVal_lt {c : Char} (h : isDigitC c = true) : digitVal c < 10 := by
  simp only [isDigitC, decide_eq_true_eq] at h
  have h0 : Char.toNat '0' = 48 := rfl
  simp only [digitVal, h0]
  omega

theorem natToStr_digits {n : ℕ} : ∀ c ∈ natToStr n, isDigitC c = true := by
  intro c hc
  unfold natToStr at hc
  split at hc
  · simp only [List.mem_singleton] at hc
    subst hc; rfl
  · rw [List.mem_map] at hc
    obtain ⟨d, hd, rfl⟩ := hc
    exact isDigitC_digitChar (Nat.digits_lt_base (by norm_num) (List.mem_reverse.mp hd))

theorem natToStr_ne_nil (n : ℕ) : natToStr n ≠ [] := by
  unfold natToStr
  split
  · simp
  · simp only [ne_eq, List.map_eq_nil_iff, List.reverse_eq_nil_iff]
    exact Nat.digits_ne_nil_iff_ne_zero.mpr (by assumption)

theorem foldl_digits_map (L : List ℕ) (hL : ∀ d ∈ L, d < 10) (a : ℕ) :
    (L.map digitChar).foldl (fun a c => 10 * a + digitVal c) a =
      L.foldl (fun a d => 10 * a + d) a := by
  induction L generalizing a with
  | nil => rfl
  | cons d L ih =>
    simp only [List.map_cons, List.foldl_cons]
    rw [digitVal_digitChar (hL d (by simp))]
    exact ih (fun x hx => hL x (by simp [hx])) _

theorem foldr_base10 (L : List ℕ) :
    L.foldr (fun d a => 10 * a + d) 0 = Nat.ofDigits 10 L := by
  induction L with
  | nil => simp [Nat.ofDigits]
  | cons d L ih =>
    simp only [List.foldr_cons, Nat.ofDigits_cons, ih]
    ring

theorem parseNatRaw_natToStr (n : ℕ) : parseNatRaw (natToStr n) = n := by
  unfold natToStr
  split
  · rename_i h; subst h; rfl
  · unfold parseNatRaw
    rw [foldl_digits_map _ (fun d hd => Nat.digits_lt_base (by norm_num) (List.mem_reverse.mp hd))]
    rw [List.foldl_reverse]
    exact (foldr_base10 _).trans (Nat.ofDigits_digits 10 n)

theorem parseNatRaw_replicate_zero (j : ℕ) : parseNatRaw (List.replicate j '0') = 0 := by
  induction j with
  | zero => rfl
  | succ j ih => simpa [parseNatRaw, List.replicate_succ] using ih

theorem parseNatRaw_padZeros (k : ℕ) (cs : Str) :
    parseNatRaw (padZeros k cs) = parseNatRaw cs := by
  unfold padZeros parseNatRaw
  rw [List.foldl_append]
  have : (List.replicate (k - cs.length) '0').foldl (fun a c => 10 * a + digitVal c) 0 = 0 :=
    parseNatRaw_replicate_zero _
  rw [this]

theorem padZeros_digits {k : ℕ} {cs : Str} (h : ∀ c ∈ cs, isDigitC c = true) :
    ∀ c ∈ padZeros k cs, isDigitC c = true := by
  intro c hc
  rcases List.mem_append.mp hc with h1 | h2
  · rw [List.eq_of_mem_replicate h1]; rfl
  · exact h c h2

theorem padZeros_length {k : ℕ} {cs : Str} (h : cs.length ≤ k) :
    (padZeros k cs).length = k := by
  simp only [padZeros, List.length_append, List.length_replicate]
  omega

theorem natToStr_length_le {n k : ℕ} (hk : 1 ≤ k) (h : n < 10 ^ k) :
    (natToStr n).length ≤ k := by
  unfold natToStr
  split
  · simpa using hk
  · simp only [List.length_map, List.length_reverse]
    rw [Nat.digits_len 10 n (by norm_num) (by assumption)]
    have := Nat.log_lt_of_lt_pow (by assumption) h
    omega

theorem parseNatRaw_aux_lt (cs : Str) (hd : ∀ c ∈ cs, isDigitC c = true) :
    ∀ a : ℕ, cs.foldl (fun a c => 10 * a + digitVal c) a < (a + 1) * 10 ^ cs.length := by
  induction cs with
  | nil => intro a; simp
  | cons c cs ih =>
    intro a
    simp only [List.foldl_cons, List.length_cons]
    have hc : digitVal c < 10 := digitVal_lt (hd c (by simp))
    calc cs.foldl (fun a c => 10 * a + digitVal c) (10 * a + digitVal c)
        < (10 * a + digitVal c + 1) * 10 ^ cs.length :=
          ih (fun x hx => hd x (by simp [hx])) _
      _ ≤ (a + 1) * 10 ^ (cs.length + 1) := by
          rw [pow_succ]
          have : 10 * a + digitVal c + 1 ≤ (a + 1) * 10 := by omega
          calc (10 * a + digitVal c + 1) * 10 ^ cs.length
              ≤ (a + 1) * 10 * 10 ^ cs.length := Nat.mul_le_mul_right _ this
            _ = (a + 1) * (10 ^ cs.length * 10) := by ring

theorem parseNatRaw_lt {cs : Str} (hd : ∀ c ∈ cs, isDigitC c = true) :
    parseNatRaw cs < 10 ^ cs.length := by
  simpa using parseNatRaw_aux_lt cs hd 0

/-! ### takeWhile / dropWhile splitting -/

theorem takeWhile_split {p : Char → Bool} {a : Str} {x : Char} (b : Str)
    (ha : ∀ c ∈ a, p c = true) (hx : p x = false) :
    (a ++ x :: b).takeWhile p = a ∧ (a ++ x :: b).dropWhile p = x :: b := by
  induction a with
  | nil => simp [List.takeWhile_cons, List.dropWhile_cons, hx]
  | cons c a ih =>
    have hc : p c = true := ha c (by simp)
    have ih' := ih fun d hd => ha d (by simp [hd])
    simp only [List.cons_append, List.takeWhile_cons, List.dropWhile_cons, hc, if_true]
    simp [hc, ih'.1, ih'.2]

theorem takeWhile_all {p : Char → Bool} {a : Str} (ha : ∀ c ∈ a, p c = true) :
    a.takeWhile p = a ∧ a.dropWhile p = [] := by
  induction a with
  | nil => simp
  | cons c a ih =>
    have hc : p c = true := ha c (by simp)
    have ih' := ih fun d hd => ha d (by simp [hd])
    simp [List.takeWhile_cons, List.dropWhile_cons, hc, ih'.1, ih'.2]

/-! ### Characters that are not digits -/

theorem isDigitC_ne {c : Char} (h : isDigitC c = true) :
    c ≠ ',' ∧ c ≠ '-' ∧ c ≠ '.' ∧ c ≠ '/' := by
  refine ⟨?_, ?_, ?_, ?_⟩ <;> rintro rfl <;> exact absurd h (by decide)

/-- Every power-of-ten-friendly denominator admits the explicit exponent
search: `d ∣ 10 ^ L` for some `L` implies `d ∣ 10 ^ d`. -/
theorem dvd_pow_ten_self {d L : ℕ} (hd : 0 < d) (h : d ∣ 10 ^ L) : d ∣ 10 ^ d := by
  induction d using Nat.strong_induction_on generalizing L with
  | _ d ih =>
    rcases Nat.lt_or_ge d 2 with h2 | h2
    · interval_cases d
      exact one_dvd _
    · obtain ⟨p, hp, hpdvd⟩ := Nat.exists_prime_and_dvd (by omega : d ≠ 1)
      have hp10 : p ∣ 10 := hp.dvd_of_dvd_pow (hpdvd.trans h)
      obtain ⟨e, he⟩ := hpdvd
      have hppos : 0 < p := hp.pos
      have hepos : 0 < e := by
        rcases Nat.eq_zero_or_pos e with rfl | h'
        · rw [Nat.mul_zero] at he; omega
        · exact h'
      have helt : e < d := by
        have hp2 : 2 ≤ p := hp.two_le
        calc e < 2 * e := by omega
          _ ≤ p * e := Nat.mul_le_mul_right e hp2
          _ = d := he.symm
      have hedvd : e ∣ 10 ^ L := dvd_trans (Dvd.intro_left p he.symm) h
      have he10 : e ∣ 10 ^ e := ih e helt hepos hedvd
      have : d ∣ 10 ^ (e + 1) := by
        rw [he, pow_succ, mul_comm (10 ^ e) 10]
        exact mul_dvd_mul hp10 he10
      exact this.trans (pow_dvd_pow 10 (by omega))

theorem pow10Exp_dvd {d : ℕ} (h : d ∣ 10 ^ d) : d ∣ 10 ^ pow10Exp d := by
  unfold pow10Exp
  rcases hfind : (List.range (d + 1)).find? (fun k => 10 ^ k % d == 0) with _ | k
  · exfalso
    rw [List.find?_eq_none] at hfind
    have hmem : d ∈ List.range (d + 1) := List.mem_range.mpr (by omega)
    have hne := hfind d hmem
    simp only [beq_iff_eq] at hne
    obtain ⟨c, hc⟩ := h
    exact hne (by rw [hc]; exact Nat.mul_mod_right d c)
  · have hp := List.find?_some hfind
    simp only [beq_iff_eq] at hp
    simpa using Nat.dvd_of_mod_eq_zero hp

/-! ### Round trip of decimal numerals -/

theorem isEmpty_false_of_ne_nil {l : Str} (h : l ≠ []) : l.isEmpty = false := by
  cases l with
  | nil => exact absurd rfl h
  | cons c cs => rfl

theorem formatUnsigned_chars {q : ℚ} :
    ∀ c ∈ formatUnsigned q, isDigitC c = true ∨ c = '.' := by
  intro c hc
  simp only [formatUnsigned] at hc
  split at hc
  · exact Or.inl (natToStr_digits c hc)
  · rcases List.mem_append.mp hc with h | h
    · exact Or.inl (natToStr_digits c h)
    · rcases List.mem_cons.mp h with rfl | h
      · exact Or.inr rfl
      · exact Or.inl (padZeros_digits natToStr_digits c h)

theorem stripCommas_eq_self {cs : Str} (h : ∀ c ∈ cs, c ≠ ',') : stripCommas cs = cs := by
  rw [stripCommas, List.filter_eq_self]
  intro c hc
  simpa using h c hc

theorem parseUnsignedQ_formatUnsigned {q : ℚ} (hq : 0 ≤ q)
    (hden : q.den ∣ 10 ^ pow10Exp q.den) :
    parseUnsignedQ (formatUnsigned q) = some q := by
  have hnum0 : ((q.num.natAbs : ℚ)) = (q.num : ℚ) := by
    rw [Int.cast_natAbs]
    exact_mod_cast abs_of_nonneg (Rat.num_nonneg.mpr hq)
  have hdenpos : (0 : ℕ) < q.den := q.pos
  by_cases h0 : pow10Exp q.den = 0
  · have hden1 : q.den = 1 := Nat.dvd_one.mp (by simpa [h0] using hden)
    have hp1 : pow10Exp 1 = 0 := by decide
    have hfmt : formatUnsigned q = natToStr q.num.natAbs := by
      simp [formatUnsigned, hden1, hp1]
    have hsplit := takeWhile_all (p := isDigitC) (natToStr_digits (n := q.num.natAbs))
    rw [hfmt]
    simp only [parseUnsignedQ, hsplit.1, hsplit.2, if_true,
      isEmpty_false_of_ne_nil (natToStr_ne_nil _)]
    simp only [Bool.false_eq_true, if_false, if_true, parseNatRaw_natToStr]
    congr 1
    rw [hnum0, ← Rat.num_div_den q, hden1]
    norm_num
  · have hk1 : 1 ≤ pow10Exp q.den := Nat.one_le_iff_ne_zero.mpr h0
    set k := pow10Exp q.den with hkdef
    set n := q.num.natAbs * (10 ^ k / q.den) with hndef
    set A := natToStr (n / 10 ^ k) with hAdef
    set B := padZeros k (natToStr (n % 10 ^ k)) with hBdef
    have hfmt : formatUnsigned q = A ++ '.' :: B := by
      simp only [formatUnsigned, if_neg h0]
    have hA : ∀ c ∈ A, isDigitC c = true := natToStr_digits
    have hB : ∀ c ∈ B, isDigitC c = true := padZeros_digits natToStr_digits
    have hsplit := takeWhile_split (p := isDigitC) (x := '.') B hA (by rfl)
    have hBlen : B.length = k :=
      padZeros_length (natToStr_length_le hk1 (Nat.mod_lt _ (by positivity)))
    rw [hfmt]
    simp only [parseUnsignedQ, hsplit.1, hsplit.2]
    simp only [List.cons_ne_nil, if_false, List.head?_cons, Option.some.injEq, if_true,
      List.tail_cons, List.all_eq_true.mpr hB, isEmpty_false_of_ne_nil (natToStr_ne_nil _),
      Bool.false_and, Bool.not_false, Bool.and_true, if_pos rfl]
    have hAval : parseNatRaw A = n / 10 ^ k := by
      rw [hAdef]; exact parseNatRaw_natToStr _
    have hBval : parseNatRaw B = n % 10 ^ k := by
      rw [hBdef, parseNatRaw_padZeros]; exact parseNatRaw_natToStr _
    simp only [hAval, hBval, hBlen]
    have hdm : (10 ^ k) * (n / 10 ^ k) + n % 10 ^ k = n := Nat.div_add_mod n (10 ^ k)
    have hpow : ((10 : ℚ)) ^ k ≠ 0 := by positivity
    have hd0 : ((q.den : ℚ)) ≠ 0 := by positivity
    have hmul : (q.num : ℚ) = q * q.den :=
      (div_eq_iff hd0).mp (Rat.num_div_den q)
    have hkey : ((n : ℚ)) = q * 10 ^ k := by
      rw [hndef, Nat.cast_mul, Nat.cast_div hden hd0, hnum0, hmul]
      push_cast
      field_simp
      linear_combination (10 : ℚ) ^ k * hmul
    have hc := congrArg (fun t : ℕ => (t : ℚ)) hdm
    push_cast at hc
    rw [hkey] at hc
    field_simp
    linarith

/-- Full numeric round trip: a decimal rational survives
serialize-then-clean unchanged. -/
theorem parseNumber_formatRat {q : ℚ} (hden : DecimalQ q) :
    parseNumber (formatRat q) = some q := by
  have hd10 : q.den ∣ 10 ^ pow10Exp q.den := pow10Exp_dvd hden
  have hnc : ∀ p : ℚ, ∀ c ∈ formatUnsigned p, c ≠ ',' := by
    intro p c hc
    rcases formatUnsigned_chars c hc with h | rfl
    · exact (isDigitC_ne h).1
    · decide
  by_cases hneg : q < 0
  · have hfmt : formatRat q = '-' :: formatUnsigned (-q) := by simp [formatRat, hneg]
    have hstrip : stripCommas ('-' :: formatUnsigned (-q)) = '-' :: formatUnsigned (-q) := by
      refine stripCommas_eq_self ?_
      intro c hc
      rcases List.mem_cons.mp hc with rfl | hm
      · decide
      · exact hnc _ c hm
    rw [hfmt]
    simp only [parseNumber, hstrip, List.head?_cons, Option.some.injEq, if_pos rfl,
      List.tail_cons]
    have hle : (0 : ℚ) ≤ -q := by linarith
    have hdneg : (-q).den = q.den := Rat.neg_den q
    have := parseUnsignedQ_formatUnsigned hle (by rw [hdneg]; exact hd10)
    rw [this]
    simp
  · push_neg at hneg
    have hfmt : formatRat q = formatUnsigned q := by simp [formatRat, not_lt.mpr hneg]
    have hstrip : stripCommas (formatUnsigned q) = formatUnsigned q :=
      stripCommas_eq_self (hnc q)
    have hhead : (formatUnsigned q).head? ≠ some '-' := by
      intro hcon
      rcases hfu : formatUnsigned q with _ | ⟨c, cs⟩
      · rw [hfu] at hcon; exact absurd hcon (by simp)
      · rw [hfu] at hcon
        simp only [List.head?_cons, Option.some.injEq] at hcon
        subst hcon
        have hmem : '-' ∈ formatUnsigned q := by rw [hfu]; simp
        rcases formatUnsigned_chars _ hmem with h | h
        · exact absurd h (by decide)
        · exact absurd h (by decide)
    rw [hfmt]
    simp only [parseNumber, hstrip, if_neg hhead]
    exact parseUnsignedQ_formatUnsigned hneg hd10

/-! ### Parse images are decimal rationals / valid dates -/

theorem natCast_decimal (m : ℕ) : DecimalQ (m : ℚ) := by
  unfold DecimalQ
  rw [Rat.den_natCast]
  simp

theorem decimal_sum (a b L : ℕ) : DecimalQ ((a : ℚ) + (b : ℚ) / 10 ^ L) := by
  have hval : ((a : ℚ)) + (b : ℚ) / 10 ^ L =
      (((a * 10 ^ L + b : ℕ) : ℤ) : ℚ) / (((10 ^ L : ℕ) : ℤ) : ℚ) := by
    push_cast
    have : ((10 : ℚ)) ^ L ≠ 0 := by positivity
    field_simp
  have hdvd := Rat.den_dvd ((a * 10 ^ L + b : ℕ) : ℤ) ((10 ^ L : ℕ) : ℤ)
  rw [Rat.divInt_eq_div] at hdvd
  rw [hval]
  set v : ℚ := (((a * 10 ^ L + b : ℕ) : ℤ) : ℚ) / (((10 ^ L : ℕ) : ℤ) : ℚ) with hv
  have hdvd' : v.den ∣ 10 ^ L := by exact_mod_cast hdvd
  exact dvd_pow_ten_self v.pos hdvd'

theorem parseUnsignedQ_decimal {cs : Str} {q : ℚ} (h : parseUnsignedQ cs = some q) :
    DecimalQ q := by
  simp only [parseUnsignedQ] at h
  split_ifs at h
  all_goals first
    | exact Option.noConfusion h
    | (rw [Option.some_inj] at h
       subst h
       first
         | exact natCast_decimal _
         | exact decimal_sum _ _ _)

theorem parseNumber_decimal {cs : Str} {q : ℚ} (h : parseNumber cs = some q) :
    DecimalQ q := by
  simp only [parseNumber] at h
  split_ifs at h with h1
  · rcases Option.map_eq_some'.mp h with ⟨p, hp, rfl⟩
    have := parseUnsignedQ_decimal hp
    unfold DecimalQ at this ⊢
    rwa [Rat.neg_den]
  · exact parseUnsignedQ_decimal h

theorem daysInMonth_le (y m : ℕ) : daysInMonth y m ≤ 31 := by
  unfold daysInMonth
  split <;> first | omega | (split <;> omega)

theorem parseDate_valid {cs : Str} {dt : Date} (h : parseDate cs = some dt) :
    validDate dt = true := by
  simp only [parseDate] at h
  split_ifs at h with h1 h2 h3 h4
  · injection h with h
    subst h
    assumption

/-! ### Round trip of dates -/

theorem ne_slash_of_digit {c : Char} (h : isDigitC c = true) :
    (fun c => decide (c ≠ '/')) c = true := by
  simp only [decide_eq_true_eq]
  exact (isDigitC_ne h).2.2.2

theorem parseDate_formatDate {dt : Date} (h : validDate dt = true) :
    parseDate (formatDate dt) = some dt := by
  have hbounds := h
  simp only [validDate, Bool.and_eq_true, decide_eq_true_eq] at hbounds
  obtain ⟨⟨⟨⟨⟨⟨hm1, hm2⟩, hd1⟩, hd2⟩, hy⟩, hts1⟩, hts2⟩ := hbounds
  set M := padZeros 2 (natToStr dt.month) with hM
  set D := padZeros 2 (natToStr dt.day) with hD
  set Y := padZeros 4 (natToStr dt.year) with hY
  have hMd : ∀ c ∈ M, isDigitC c = true := padZeros_digits natToStr_digits
  have hDd : ∀ c ∈ D, isDigitC c = true := padZeros_digits natToStr_digits
  have hYd : ∀ c ∈ Y, isDigitC c = true := padZeros_digits natToStr_digits
  have hMlen : M.length = 2 :=
    padZeros_length (natToStr_length_le (by omega) (by omega))
  have hDlen : D.length = 2 := by
    have : dt.day < 100 := by
      have := daysInMonth_le dt.year dt.month
      omega
    exact padZeros_length (natToStr_length_le (by omega) (by omega))
  have hYlen : Y.length = 4 :=
    padZeros_length (natToStr_length_le (by omega) (by omega))
  have hfmt : formatDate dt = M ++ '/' :: (D ++ '/' :: Y) := by
    simp [formatDate, hM, hD, hY]
  have hsl : (fun c => decide (c ≠ '/')) '/' = false := by simp
  have hsplit1 := takeWhile_split (p := fun c => decide (c ≠ '/')) (x := '/')
    (D ++ '/' :: Y) (fun c hc => ne_slash_of_digit (hMd c hc)) hsl
  have hsplit2 := takeWhile_split (p := fun c => decide (c ≠ '/')) (x := '/')
    Y (fun c hc => ne_slash_of_digit (hDd c hc)) hsl
  have hMval : parseNatRaw M = dt.month := by
    rw [hM, parseNatRaw_padZeros]; exact parseNatRaw_natToStr _
  have hDval : parseNatRaw D = dt.day := by
    rw [hD, parseNatRaw_padZeros]; exact parseNatRaw_natToStr _
  have hYval : parseNatRaw Y = dt.year := by
    rw [hY, parseNatRaw_padZeros]; exact parseNatRaw_natToStr _
  rw [hfmt]
  simp only [parseDate, hsplit1.1, hsplit1.2, List.head?_cons, List.tail_cons,
    hsplit2.1, hsplit2.2, if_pos rfl]
  have hgM : digitGroup 2 M = true := by
    simp only [digitGroup, Bool.and_eq_true, List.all_eq_true, decide_eq_true_eq]
    exact ⟨⟨hMd, by omega⟩, by omega⟩
  have hgD : digitGroup 2 D = true := by
    simp only [digitGroup, Bool.and_eq_true, List.all_eq_true, decide_eq_true_eq]
    exact ⟨⟨hDd, by omega⟩, by omega⟩
  have hcond : (digitGroup 2 M && digitGroup 2 D &&
      (Y.all isDigitC && decide (Y.length = 4))) = true := by
    simp only [Bool.and_eq_true, List.all_eq_true, decide_eq_true_eq]
    exact ⟨⟨hgM, hgD⟩, hYd, hYlen⟩
  rw [if_pos hcond]
  have hdt : (⟨parseNatRaw Y, parseNatRaw M, parseNatRaw D⟩ : Date) = dt := by
    rw [hMval, hDval, hYval]
  rw [hdt, if_pos h]
  simp

/-! ### The cleaning pipeline -/

theorem map_toRowC_zipWith (l₁ l₂ : List RowC) (h : l₂.length ≤ l₁.length) :
    (List.zipWith (fun p c => Row.mk c (some (pctFormula p.close c.close))) l₁ l₂).map
      Row.toRowC = l₂ := by
  induction l₂ generalizing l₁ with
  | nil => simp
  | cons y ys ih =>
    cases l₁ with
    | nil => simp at h
    | cons x xs =>
      simp only [List.zipWith_cons_cons, List.map_cons, List.cons.injEq]
      exact ⟨trivial, ih xs (by simpa using h)⟩

theorem addPct_map_toRowC (l : List RowC) : (addPct l).map Row.toRowC = l := by
  cases l with
  | nil => rfl
  | cons x xs =>
    simp only [addPct, List.map_cons, List.cons.injEq]
    exact ⟨trivial, map_toRowC_zipWith (x :: xs) xs (by simp)⟩

theorem addPct_length (l : List RowC) : (addPct l).length = l.length := by
  have := congrArg List.length (addPct_map_toRowC l)
  simpa using this

theorem addPct_get_zero (l : List RowC) (h : 0 < l.length) :
    (addPct l).get ⟨0, by rw [addPct_length]; exact h⟩ = ⟨l.get ⟨0, h⟩, none⟩ := by
  cases l with
  | nil => simp at h
  | cons x xs => rfl

theorem addPct_get_succ (l : List RowC) (i : ℕ) (h : i + 1 < l.length) :
    (addPct l).get ⟨i + 1, by rw [addPct_length]; exact h⟩ =
      ⟨l.get ⟨i + 1, h⟩,
        some (pctFormula (l.get ⟨i, by omega⟩).close (l.get ⟨i + 1, h⟩).close)⟩ := by
  cases l with
  | nil => simp at h
  | cons x xs =>
    simp only [addPct, List.get_eq_getElem, List.getElem_cons_succ]
    have hx : i < xs.length := by simpa using h
    rw [List.getElem_zipWith]

theorem sortRows_sorted (l : List RowC) : List.Sorted rcLE (sortRows l) :=
  List.sorted_insertionSort rcLE l

theorem sortRows_perm (l : List RowC) : (sortRows l).Perm l :=
  List.perm_insertionSort rcLE l

theorem clean_chain (raws : List RawRecord) : List.Chain' rowLE (clean raws) := by
  have hc : List.Chain' rcLE (sortRows (raws.filterMap parseRow)) :=
    (sortRows_sorted (raws.filterMap parseRow)).chain'
  unfold clean
  set L := sortRows (raws.filterMap parseRow) with hL
  rw [← addPct_map_toRowC L] at hc
  exact (List.chain'_map Row.toRowC).mp hc

theorem mem_clean {raws : List RawRecord} {r : Row} (h : r ∈ clean raws) :
    ∃ raw ∈ raws, parseRow raw = some r.toRowC := by
  unfold clean at h
  have h1 : r.toRowC ∈ sortRows (raws.filterMap parseRow) := by
    have := List.mem_map_of_mem Row.toRowC h
    rwa [addPct_map_toRowC] at this
  have h2 : r.toRowC ∈ raws.filterMap parseRow :=
    ((sortRows_perm (raws.filterMap parseRow)).mem_iff).mp h1
  simpa using List.mem_filterMap.mp h2

theorem parseRow_some_iff {raw : RawRecord} {c : RowC} :
    parseRow raw = some c ↔
      parseDate raw.dateS = some c.date ∧ parseNumber raw.closeS = some c.close ∧
        c.extra = raw.extra := by
  obtain ⟨cd, cc, ce⟩ := c
  unfold parseRow
  rcases hd : parseDate raw.dateS with _ | dt <;> rcases hn : parseNumber raw.closeS with _ | q
  · simp
  · simp
  · simp
  · simp only [Option.some_inj, RowC.mk.injEq]
    constructor
    · rintro ⟨rfl, rfl, rfl⟩
      exact ⟨rfl, rfl, rfl⟩
    · rintro ⟨h1, h2, rfl⟩
      exact ⟨h1, h2, rfl⟩

theorem clean_row_valid {raws : List RawRecord} {r : Row} (h : r ∈ clean raws) :
    validDate r.date = true ∧ DecimalQ r.close := by
  obtain ⟨raw, _, hp⟩ := mem_clean h
  rw [parseRow_some_iff] at hp
  exact ⟨parseDate_valid hp.1, parseNumber_decimal hp.2.1⟩

/-! ### min / max of a sorted series -/

theorem foldl_min_days (rs : List Row) (a : ℤ) (h : ∀ x ∈ rs, a ≤ x.days) :
    rs.foldl (fun acc x => min acc x.days) a = a := by
  induction rs generalizing a with
  | nil => rfl
  | cons x rs ih =>
    simp only [List.foldl_cons]
    rw [min_eq_left (h x (by simp))]
    exact ih a fun y hy => h y (by simp [hy])

theorem chain'_head_le {r : Row} {rs : List Row} (h : List.Chain' rowLE (r :: rs)) :
    ∀ x ∈ rs, r.days ≤ x.days := by
  have hp : List.Pairwise rowLE (r :: rs) := List.chain'_iff_pairwise.mp h
  intro x hx
  exact (List.pairwise_cons.mp hp).1 x hx

theorem minDays_sorted {r : Row} {rs : List Row} (h : List.Chain' rowLE (r :: rs)) :
    minDays (r :: rs) = some r.days := by
  show some (rs.foldl (fun a x => min a x.days) r.days) = some r.days
  rw [foldl_min_days rs r.days (chain'_head_le h)]

theorem foldl_max_sorted {rs : List Row} {r : Row} (h : List.Chain' rowLE (r :: rs)) :
    rs.foldl (fun acc x => max acc x.days) r.days =
      ((r :: rs).getLast (List.cons_ne_nil r rs)).days := by
  induction rs generalizing r with
  | nil => simp [List.getLast]
  | cons x rs ih =>
    have hrx : rowLE r x := (List.chain'_cons.mp h).1
    simp only [List.foldl_cons]
    rw [max_eq_right hrx]
    rw [ih (List.chain'_cons.mp h).2]
    rw [List.getLast_cons (List.cons_ne_nil x rs)]

theorem maxDays_sorted {r : Row} {rs : List Row} (h : List.Chain' rowLE (r :: rs)) :
    maxDays (r :: rs) = some (((r :: rs).getLast (List.cons_ne_nil r rs)).days) := by
  show some (rs.foldl (fun a x => max a x.days) r.days) = some _
  rw [foldl_max_sorted h]

/-! ### Means -/

theorem meanOpt_map_pct (rows : List Row) :
    meanOpt (rows.map Row.pct) = meanOfDefined rows := by
  unfold meanOpt meanOfDefined
  rw [List.filterMap_map]
  simp only [Function.comp_def, id_eq]
  by_cases h : rows.filterMap Row.pct = []
  · simp [h]
  · rw [if_neg (by simpa [List.length_eq_zero] using h), if_neg h]

/-! ### Window selections -/

theorem tailN_length_le (n : ℕ) (l : List Row) : (tailN n l).length ≤ n := by
  simp only [tailN, List.length_drop]
  omega

theorem tailN_subset (n : ℕ) (l : List Row) : ∀ r ∈ tailN n l, r ∈ l :=
  fun _ hr => List.drop_subset _ _ hr

theorem tailN_filter_eq {n : ℕ} {l : List Row} {p : Row → Bool}
    (h : ∀ r ∈ tailN n l, p r = true) : tailN n (l.filter p) = tailN n l := by
  by_cases hn : l.length ≤ n
  · have hfull : tailN n l = l := by
      simp [tailN, Nat.sub_eq_zero_of_le hn]
    rw [hfull] at h
    rw [List.filter_eq_self.mpr h, hfull]
  · push_neg at hn
    have hT : (tailN n l).length = n := by
      simp only [tailN, List.length_drop]
      omega
    have hfilterT : (tailN n l).filter p = tailN n l := List.filter_eq_self.mpr h
    have hstep : l.filter p = (l.take (l.length - n)).filter p ++ tailN n l := by
      conv_lhs => rw [← List.take_append_drop (l.length - n) l]
      rw [List.filter_append]
      rw [show l.drop (l.length - n) = tailN n l from rfl, hfilterT]
    have hgen : ∀ X T : List Row, T.length = n → tailN n (X ++ T) = T := by
      intro X T hTl
      unfold tailN
      rw [List.length_append, hTl]
      have harith : X.length + n - n = X.length := by omega
      rw [harith, List.drop_left]
    rw [hstep]
    exact hgen _ _ hT

theorem take_filter_eq {n : ℕ} {l : List Row} {q : Row → Bool}
    (h : ∀ r ∈ l.take n, q r = true) : (l.filter q).take n = l.take n := by
  by_cases hn : l.length ≤ n
  · have hfull : l.take n = l := List.take_of_length_le hn
    rw [hfull] at h
    rw [List.filter_eq_self.mpr h, hfull]
  · push_neg at hn
    have hTlen : (l.take n).length = n := by
      simp only [List.length_take]
      omega
    have hfilterT : (l.take n).filter q = l.take n := List.filter_eq_self.mpr h
    have hstep : l.filter q = l.take n ++ (l.drop n).filter q := by
      conv_lhs => rw [← List.take_append_drop n l]
      rw [List.filter_append, hfilterT]
    have hgen : ∀ T Y : List Row, T.length = n → (T ++ Y).take n = T := by
      intro T Y hTl
      rw [← hTl, List.take_left]
    rw [hstep]
    exact hgen _ _ hTlen

theorem beforeRows_eq_filter (rows : List Row) (ev : ℤ) :
    beforeRows rows ev =
      tailN 5 ((rows.filter (fun r => decide (r.days < ev))).filter
        (fun r => decide (ev - 15 ≤ r.days))) := by
  unfold beforeRows windowRows
  congr 1
  rw [List.filter_filter, List.filter_filter]
  apply List.filter_congr
  intro r _
  by_cases h1 : r.days < ev <;> by_cases h2 : ev - 15 ≤ r.days <;>
    simp [h1, h2, decide_eq_true_eq] <;> omega

theorem afterRows_eq_filter (rows : List Row) (ev : ℤ) :
    afterRows rows ev =
      ((rows.filter (fun r => decide (ev < r.days))).filter
        (fun r => decide (r.days ≤ ev + 15))).take 5 := by
  unfold afterRows windowRows
  congr 1
  rw [List.filter_filter, List.filter_filter]
  apply List.filter_congr
  intro r _
  by_cases h1 : ev < r.days <;> by_cases h2 : r.days ≤ ev + 15 <;>
    simp [h1, h2, decide_eq_true_eq] <;> omega

/-! ### Indexing the derived series -/

theorem addPct_getElem_toRowC (l : List RowC) (i : ℕ) (hi : i < l.length)
    (hi2 : i < (addPct l).length) : ((addPct l)[i]).toRowC = l[i] := by
  have hm := addPct_map_toRowC l
  have h3 : ((addPct l).map Row.toRowC)[i]? = l[i]? := by rw [hm]
  rw [List.getElem?_map, List.getElem?_eq_getElem hi2, List.getElem?_eq_getElem hi] at h3
  simpa using h3

theorem addPct_getElem_zero (l : List RowC) (h : 0 < l.length)
    (h2 : 0 < (addPct l).length) : (addPct l)[0] = ⟨l[0], none⟩ := by
  cases l with
  | nil => simp at h
  | cons x xs => rfl

theorem addPct_getElem_succ (l : List RowC) (i : ℕ) (h : i + 1 < l.length)
    (h2 : i + 1 < (addPct l).length) :
    (addPct l)[i + 1] = ⟨l[i + 1], some (pctFormula (l[i]).close (l[i + 1]).close)⟩ := by
  cases l with
  | nil => simp at h
  | cons x xs =>
    have hx : i < xs.length := by simpa using h
    simp only [addPct, List.getElem_cons_succ]
    rw [List.getElem_zipWith]

/-! ### Serialization round trip at the row and series level -/

theorem serialize_parseRow {r : Row} (hv : validDate r.date = true) (hd : DecimalQ r.close) :
    parseRow (serializeRow r) = some r.toRowC := by
  rw [parseRow_some_iff]
  exact ⟨parseDate_formatDate hv, parseNumber_formatRat hd, rfl⟩

theorem filterMap_parseRow_serialize {rows : List Row}
    (h : ∀ r ∈ rows, validDate r.date = true ∧ DecimalQ r.close) :
    (rows.map serializeRow).filterMap parseRow = rows.map Row.toRowC := by
  induction rows with
  | nil => rfl
  | cons r rs ih =>
    simp only [List.map_cons, List.filterMap_cons]
    rw [serialize_parseRow (h r (by simp)).1 (h r (by simp)).2]
    rw [ih fun x hx => h x (by simp [hx])]

theorem sortRows_idem (l : List RowC) : sortRows (sortRows l) = sortRows l :=
  List.Sorted.insertionSort_eq (sortRows_sorted l)

/-! ### Undefined means -/

theorem meanOfDefined_eq_none (rows : List Row) :
    meanOfDefined rows = none ↔ (rows = [] ∨ ∀ r ∈ rows, r.pct = none) := by
  have hred : meanOfDefined rows = if rows.filterMap Row.pct = [] then none
      else some ((rows.filterMap Row.pct).sum / ((rows.filterMap Row.pct).length : ℚ)) := rfl
  rw [hred]
  split_ifs with h
  · rw [List.filterMap_eq_nil_iff] at h
    exact iff_of_true rfl (Or.inr h)
  · refine iff_of_false (by simp) ?_
    rintro (rfl | hall)
    · exact h rfl
    · exact h (List.filterMap_eq_nil_iff.mpr hall)

/-! ## The claims -/

/-- C5: for every raw record set, in the PriceSeries produced by `clean`
every pair of adjacent rows satisfies `date_i ≤ date_{i+1}` (rows are sorted
ascending by date). -/
theorem clean_sorted_by_date (raws : List RawRecord) :
    List.Chain' (fun a b : Row => a.date.toDaysZ ≤ b.date.toDaysZ) (clean raws) :=
  clean_chain raws

/-- C1: in every cleaned series, row `i+1`'s `pct_change` is
`(close_{i+1} - close_i) / close_i * 100` (computed on the post-sort,
post-drop sequence; the previous close must be nonzero, since with a zero
close the float code produces an infinity rather than a number), and row 0's
`pct_change` is undefined. -/
theorem pct_change_formula (raws : List RawRecord) (i : ℕ)
    (hi : i < (clean raws).length) (h1 : i + 1 < (clean raws).length)
    (hc : ((clean raws).get ⟨i, hi⟩).close ≠ 0) :
    ((clean raws).get ⟨i + 1, h1⟩).pct =
      some ((((clean raws).get ⟨i + 1, h1⟩).close - ((clean raws).get ⟨i, hi⟩).close) /
          ((clean raws).get ⟨i, hi⟩).close * 100) ∧
    (∀ h0 : 0 < (clean raws).length, ((clean raws).get ⟨0, h0⟩).pct = none) := by
  have hlen : (clean raws).length = (sortRows (raws.filterMap parseRow)).length :=
    addPct_length _
  set L := sortRows (raws.filterMap parseRow) with hL
  have hcr : clean raws = addPct L := rfl
  constructor
  · have hL1 : i + 1 < L.length := by omega
    have hLi : i < L.length := by omega
    have hsucc := addPct_getElem_succ L i hL1 (by rw [addPct_length]; exact hL1)
    have hcur : ((clean raws).get ⟨i + 1, h1⟩) = (addPct L)[i + 1] := by
      simp [hcr, List.get_eq_getElem]
    have hprevC : ((clean raws).get ⟨i, hi⟩).close = (L[i]).close := by
      have := addPct_getElem_toRowC L i hLi (by rw [addPct_length]; exact hLi)
      have hclose := congrArg RowC.close this
      simp only [hcr, List.get_eq_getElem]
      exact hclose
    rw [hcur, hsucc, hprevC]
    simp only [pctFormula]
    congr 1
    have hcne : (L[i]).close ≠ 0 := by rw [← hprevC]; exact hc
    field_simp
  · intro h0
    have hz := addPct_getElem_zero L (by omega) (by rw [addPct_length]; omega)
    have : ((clean raws).get ⟨0, h0⟩) = (addPct L)[0] := by
      simp [hcr, List.get_eq_getElem]
    rw [this, hz]

/-- C1 witness: on the concrete batch `wRaws` (Jan 2, 3, 5 of 2024 with
closes 100, 110, 99), row 1's return is `(110 - 100) / 100 * 100` and row
0's is undefined. -/
theorem pct_change_formula_witness :
    ((clean wRaws).get ⟨0 + 1, by decide⟩).pct =
      some ((((clean wRaws).get ⟨0 + 1, by decide⟩).close -
          ((clean wRaws).get ⟨0, by decide⟩).close) /
        ((clean wRaws).get ⟨0, by decide⟩).close * 100) ∧
    (∀ h0 : 0 < (clean wRaws).length, ((clean wRaws).get ⟨0, h0⟩).pct = none) :=
  pct_change_formula wRaws 0 (by decide) (by decide) (by decide)

/-- C2: for a series and an event date the code accepts as in range, the
before window and the after window each have at most 5 rows, every before
row is strictly earlier than the event date, and every after row strictly
later. -/
theorem window_size_and_strictness (rows : List Row) (ev : ℤ)
    (_hne : rows ≠ []) (_hval : (evaluateEvent rows ev).valid = true) :
    (beforeRows rows ev).length ≤ 5 ∧ (afterRows rows ev).length ≤ 5 ∧
    (∀ r ∈ beforeRows rows ev, r.days < ev) ∧ (∀ r ∈ afterRows rows ev, ev < r.days) := by
  refine ⟨tailN_length_le _ _, List.length_take_le _ _, ?_, ?_⟩
  · intro r hr
    have hr2 := tailN_subset _ _ r hr
    have hm := List.mem_filter.mp hr2
    simpa using hm.2
  · intro r hr
    have hr2 := List.take_subset _ _ hr
    have hm := List.mem_filter.mp hr2
    simpa using hm.2

/-- C2 witness: the concrete series `clean wRaws` with event Jan 4 2024. -/
theorem window_size_and_strictness_witness :
    (beforeRows (clean wRaws) wEvent).length ≤ 5 ∧
    (afterRows (clean wRaws) wEvent).length ≤ 5 ∧
    (∀ r ∈ beforeRows (clean wRaws) wEvent, r.days < wEvent) ∧
    (∀ r ∈ afterRows (clean wRaws) wEvent, wEvent < r.days) :=
  window_size_and_strictness (clean wRaws) wEvent (by decide) (by decide)

/-- An event date strictly outside the span of a sorted non-empty series
makes the range check fire. -/
theorem out_of_range_general (rows : List Row) (ev : ℤ)
    (hch : List.Chain' rowLE rows) (h0 : 0 < rows.length)
    (hout : ev < (rows.get ⟨0, h0⟩).days ∨
      (rows.get ⟨rows.length - 1, by omega⟩).days < ev) :
    evaluateEvent rows ev = ⟨false, none, none⟩ := by
  rcases rows with _ | ⟨r, rs⟩
  · simp at h0
  · have hmin := minDays_sorted hch
    have hmax := maxDays_sorted hch
    have hlast : (r :: rs).get ⟨(r :: rs).length - 1, by omega⟩ =
        (r :: rs).getLast (List.cons_ne_nil r rs) := by
      rw [List.getLast_eq_getElem]
      simp [List.get_eq_getElem]
    have hcond : (ltMin ev (minDays (r :: rs)) || gtMax ev (maxDays (r :: rs))) = true := by
      rw [hmin, hmax]
      simp only [ltMin, gtMax, Bool.or_eq_true, decide_eq_true_eq]
      rcases hout with h | h
      · left
        simpa using h
      · right
        rw [hlast] at h
        exact h
    unfold evaluateEvent
    rw [hcond]
    rfl

/-- C3: for a non-empty cleaned series and an event date strictly outside
the inclusive span from the first row's date to the last row's date, the
event analysis reports `in_range = false` and leaves both averages
undefined. -/
theorem out_of_range_event (raws : List RawRecord) (ev : ℤ)
    (h0 : 0 < (clean raws).length)
    (hout : ev < ((clean raws).get ⟨0, h0⟩).days ∨
      ((clean raws).get ⟨(clean raws).length - 1, by omega⟩).days < ev) :
    evaluateEvent (clean raws) ev = ⟨false, none, none⟩ :=
  out_of_range_general (clean raws) ev (clean_chain raws) h0 hout

/-- C3 witness: `wRaws` with the event Dec 1 2023, before the whole series. -/
theorem out_of_range_event_witness :
    evaluateEvent (clean wRaws) (Date.toDaysZ ⟨2023, 12, 1⟩) = ⟨false, none, none⟩ :=
  out_of_range_event wRaws (Date.toDaysZ ⟨2023, 12, 1⟩) (by decide) (Or.inl (by decide))

/-- C4: for an in-range event, `before_avg` is the arithmetic mean of the
defined `pct_change` values of the before window (undefined entries are
skipped) and is undefined exactly when the before window is empty or
contains no defined `pct_change`; same for `after_avg`. -/
theorem window_averages_skip_undefined (rows : List Row) (ev : ℤ)
    (_hne : rows ≠ []) (hval : (evaluateEvent rows ev).valid = true) :
    (evaluateEvent rows ev).beforeAvg = meanOfDefined (beforeRows rows ev) ∧
    (evaluateEvent rows ev).afterAvg = meanOfDefined (afterRows rows ev) ∧
    ((evaluateEvent rows ev).beforeAvg = none ↔
      (beforeRows rows ev = [] ∨ ∀ r ∈ beforeRows rows ev, r.pct = none)) ∧
    ((evaluateEvent rows ev).afterAvg = none ↔
      (afterRows rows ev = [] ∨ ∀ r ∈ afterRows rows ev, r.pct = none)) := by
  rcases hcond : (ltMin ev (minDays rows) || gtMax ev (maxDays rows)) with _ | _
  · have hev : evaluateEvent rows ev =
        ⟨true, meanOpt ((beforeRows rows ev).map Row.pct),
          meanOpt ((afterRows rows ev).map Row.pct)⟩ := by
      unfold evaluateEvent
      rw [hcond]
      rfl
    rw [hev]
    refine ⟨meanOpt_map_pct _, meanOpt_map_pct _, ?_, ?_⟩
    · rw [show (EventResult.mk true (meanOpt ((beforeRows rows ev).map Row.pct))
          (meanOpt ((afterRows rows ev).map Row.pct))).beforeAvg =
            meanOpt ((beforeRows rows ev).map Row.pct) from rfl]
      rw [meanOpt_map_pct]
      exact meanOfDefined_eq_none _
    · rw [show (EventResult.mk true (meanOpt ((beforeRows rows ev).map Row.pct))
          (meanOpt ((afterRows rows ev).map Row.pct))).afterAvg =
            meanOpt ((afterRows rows ev).map Row.pct) from rfl]
      rw [meanOpt_map_pct]
      exact meanOfDefined_eq_none _
  · exfalso
    unfold evaluateEvent at hval
    rw [hcond] at hval
    simp at hval

/-- C4 witness: the concrete series `clean wRaws` with event Jan 4 2024. -/
theorem window_averages_skip_undefined_witness :
    (evaluateEvent (clean wRaws) wEvent).beforeAvg =
      meanOfDefined (beforeRows (clean wRaws) wEvent) ∧
    (evaluateEvent (clean wRaws) wEvent).afterAvg =
      meanOfDefined (afterRows (clean wRaws) wEvent) ∧
    ((evaluateEvent (clean wRaws) wEvent).beforeAvg = none ↔
      (beforeRows (clean wRaws) wEvent = [] ∨
        ∀ r ∈ beforeRows (clean wRaws) wEvent, r.pct = none)) ∧
    ((evaluateEvent (clean wRaws) wEvent).afterAvg = none ↔
      (afterRows (clean wRaws) wEvent = [] ∨
        ∀ r ∈ afterRows (clean wRaws) wEvent, r.pct = none)) :=
  window_averages_skip_undefined (clean wRaws) wEvent (by decide) (by decide)

/-- C6 counterexample: on the series Jan 1, Jan 2, Mar 1 2024 with the
in-range event Feb 1 2024, the ±15-day bounding window empties the before
set (both earlier rows are more than 15 days old), while the unrestricted
selection keeps them — and the before averages differ (undefined vs 10%).
So the ±15-day window is not a pure optimization. -/
theorem window_restriction_changes_result :
    clean cexRawsGap ≠ [] ∧
    (evaluateEvent (clean cexRawsGap) cexEventGap).valid = true ∧
    beforeRows (clean cexRawsGap) cexEventGap ≠
      beforeAllRows (clean cexRawsGap) cexEventGap ∧
    meanOpt ((beforeRows (clean cexRawsGap) cexEventGap).map Row.pct) ≠
      meanOpt ((beforeAllRows (clean cexRawsGap) cexEventGap).map Row.pct) := by
  decide

/-- C6 amended: the ±15-day bounding window never changes the before/after
selections (hence the averages) PROVIDED every row of the unrestricted
before selection lies at most 15 days before the event and every row of the
unrestricted after selection at most 15 days after; without that proviso the
two selections can differ. -/
theorem window_restriction_within_bounds (rows : List Row) (ev : ℤ)
    (hb : ∀ r ∈ beforeAllRows rows ev, ev - 15 ≤ r.days)
    (ha : ∀ r ∈ afterAllRows rows ev, r.days ≤ ev + 15) :
    beforeRows rows ev = beforeAllRows rows ev ∧
    afterRows rows ev = afterAllRows rows ev := by
  constructor
  · rw [beforeRows_eq_filter]
    exact tailN_filter_eq fun r hr => by simpa using hb r hr
  · rw [afterRows_eq_filter]
    exact take_filter_eq fun r hr => by simpa using ha r hr

/-- C6 amended witness: on `clean wRaws` with event Jan 4 2024 all selected
rows are within 15 days, and the selections agree. -/
theorem window_restriction_within_bounds_witness :
    beforeRows (clean wRaws) wEvent = beforeAllRows (clean wRaws) wEvent ∧
    afterRows (clean wRaws) wEvent = afterAllRows (clean wRaws) wEvent :=
  window_restriction_within_bounds (clean wRaws) wEvent (by decide) (by decide)

/-- C7 counterexample: two raw rows share the date Jan 2 2024; `clean` keeps
both, so the produced series has two rows with the same date. -/
theorem clean_keeps_duplicate_dates :
    ¬ List.Pairwise (fun a b : Row => a.date ≠ b.date) (clean cexRawsDup) := by
  decide

/-- C7 amended: `clean` never deduplicates, but it also never creates
duplicates: if the parsed surviving input rows have pairwise-distinct dates
then so does the cleaned series. -/
theorem clean_preserves_distinct_dates (raws : List RawRecord)
    (h : List.Pairwise (fun a b : RowC => a.date ≠ b.date) (raws.filterMap parseRow)) :
    List.Pairwise (fun a b : Row => a.date ≠ b.date) (clean raws) := by
  have hperm : (sortRows (raws.filterMap parseRow)).Perm (raws.filterMap parseRow) :=
    sortRows_perm _
  have h2 : List.Pairwise (fun a b : RowC => a.date ≠ b.date)
      (sortRows (raws.filterMap parseRow)) :=
    (hperm.pairwise_iff fun hab => hab.symm).mpr h
  unfold clean
  set L := sortRows (raws.filterMap parseRow)
  rw [← addPct_map_toRowC L] at h2
  exact List.Pairwise.of_map Row.toRowC (fun _ _ hab => hab) h2

/-- C7 amended witness: the concrete batch `wRaws` has distinct dates and so
does its cleaned series. -/
theorem clean_preserves_distinct_dates_witness :
    List.Pairwise (fun a b : Row => a.date ≠ b.date) (clean wRaws) :=
  clean_preserves_distinct_dates wRaws (by decide)

/-- C8 counterexample: a file whose `Date` column is entirely unparseable
cleans to an empty series (confirming the first half of the claim), but the
caller still runs the event analysis on it, and — because comparisons
against the undefined min/max are false — the analysis reports
`in_range = true` instead of failing or reporting out-of-range. -/
theorem empty_series_reports_in_range :
    clean [cexRawBadDate] = [] ∧
    (evaluateEvent (clean [cexRawBadDate]) 0).valid = true := by
  decide

/-- C8 amended: an entirely unparseable `Date` column yields an empty
PriceSeries (not a fatal error); the event analysis IS invoked on it and
returns `in_range = true` with both averages undefined (there is no
`EmptySeriesError` in the code). -/
theorem unparseable_dates_empty_series_in_range (raws : List RawRecord) (ev : ℤ)
    (h : ∀ raw ∈ raws, parseDate raw.dateS = none) :
    clean raws = [] ∧ evaluateEvent (clean raws) ev = ⟨true, none, none⟩ := by
  have hnil : raws.filterMap parseRow = [] := by
    rw [List.filterMap_eq_nil_iff]
    intro raw hraw
    simp [parseRow, h raw hraw]
  have hclean : clean raws = [] := by
    unfold clean
    rw [hnil]
    rfl
  refine ⟨hclean, ?_⟩
  rw [hclean]
  rfl

/-- C8 amended witness: the single ISO-formatted row cleans to the empty
series and the analysis at day 5 reports in-range with undefined averages. -/
theorem unparseable_dates_empty_series_in_range_witness :
    clean [cexRawBadDate] = [] ∧
    evaluateEvent (clean [cexRawBadDate]) 5 = ⟨true, none, none⟩ :=
  unparseable_dates_empty_series_in_range [cexRawBadDate] 5 (by decide)

/-- Restricted round trip: when the surviving input rows carry pairwise
distinct dates, serializing the cleaned series back into the raw textual
format (`MM/DD/YYYY` dates, closes as decimal numerals) and cleaning again
reproduces the same series — same dates, closes, `pct_change` values, and
untouched columns.  The hypothesis matters for faithfulness, not for the
model-level proof: with distinct dates the date-sorted order is unique, so
the program's unstable `sort_values` and the model's deterministic sort
agree; with duplicate dates the program's tie order on a re-sort is decided
inside numpy's unstable quicksort and is not determined by this
repository's source, so the unconditional round trip is not asserted. -/
theorem clean_round_trip_of_distinct_dates (raws : List RawRecord)
    (_hdist : List.Pairwise (fun a b : RowC => a.date ≠ b.date) (raws.filterMap parseRow)) :
    clean ((clean raws).map serializeRow) = clean raws := by
  have hvalid : ∀ r ∈ clean raws, validDate r.date = true ∧ DecimalQ r.close :=
    fun _ hr => clean_row_valid hr
  have hP : (clean raws).map Row.toRowC = sortRows (raws.filterMap parseRow) :=
    addPct_map_toRowC _
  calc clean ((clean raws).map serializeRow)
      = addPct (sortRows (((clean raws).map serializeRow).filterMap parseRow)) := rfl
    _ = addPct (sortRows ((clean raws).map Row.toRowC)) := by
        rw [filterMap_parseRow_serialize hvalid]
    _ = addPct (sortRows (sortRows (raws.filterMap parseRow))) := by rw [hP]
    _ = addPct (sortRows (raws.filterMap parseRow)) := by rw [sortRows_idem]
    _ = clean raws := rfl

/-- C10: `clean` touches only the parsed fields and the added `Pct_Change`:
the cleaned rows are exactly (a permutation of) the successfully parsed
input rows — no row is invented — and each surviving row keeps every other
column's value (`extra`) unchanged from its originating raw row. -/
theorem clean_frame_condition (raws : List RawRecord) :
    ((clean raws).map Row.toRowC).Perm (raws.filterMap parseRow) ∧
    (∀ r ∈ clean raws, ∃ raw ∈ raws, parseRow raw = some r.toRowC ∧
      r.extra = raw.extra) := by
  constructor
  · have hP : (clean raws).map Row.toRowC = sortRows (raws.filterMap parseRow) :=
      addPct_map_toRowC _
    rw [hP]
    exact sortRows_perm _
  · intro r hr
    obtain ⟨raw, hraw, hp⟩ := mem_clean hr
    refine ⟨raw, hraw, hp, ?_⟩
    rw [parseRow_some_iff] at hp
    exact hp.2.2

/-- C10 witness: the first cleaned row of `wRaws` originates from an input
row with the same `extra` content. -/
theorem clean_frame_condition_witness :
    ∃ raw ∈ wRaws, parseRow raw = some ((clean wRaws).get ⟨0, by decide⟩).toRowC ∧
      ((clean wRaws).get ⟨0, by decide⟩).extra = raw.extra :=
  (clean_frame_condition wRaws).2 ((clean wRaws).get ⟨0, by decide⟩) (by decide)

end StockApp
